import Mathlib

/-!
Shallow embedding of `src/app1.py` (energia_renovable_colombia).

The program is a linear dashboard script whose logic core is:
  * line 41:    `proyectos_por_depto = df_excel['Departamento'].value_counts().reset_index()`
  * line 46:    normalization of the count-table keys (`.str.upper().str.strip()`)
  * line 47:    in-place normalization of the region names `gdf['NOMBRE_DPT']`
  * lines 50-58: left merge of the counts onto the regions, then `fillna(0)`
  * lines 98-100: `dropna` on the year column, `groupby('Año de publicación').size()`,
    ascending sort by year
  * line 132:   `st.metric("Total de Proyectos", len(df_excel))`
  * lines 20-33: loader with a `try/except` returning `(None, None)` on any failure
  * line 38:    guard `if gdf is not None and df_excel is not None`

Strings are modelled as `List Char` (Python `str`).  Machine-irrelevant details
(geometry contents, chart styling, CRS reprojection) are carried opaquely or
omitted; counts are `Nat` (pandas int64 counts, non-negative after `fillna(0)`).
`value_counts` sorts by count descending; the relative order of keys with equal
counts is an implementation detail of pandas' hash table and unstable sort that
nothing downstream we verify depends on, so the embedding fixes a deterministic
representative (`List.dedup` key order, stable insertion sort by count).
-/

/-- Python `str` whitespace, restricted to the ASCII whitespace characters
that `str.strip()` removes. -/
def pySpace (c : Char) : Bool :=
  c = ' ' || c = '\t' || c = '\n' || c = '\r' || c = '\x0b' || c = '\x0c'

/-- Lower/upper case pairs realising Python `str.upper()` on the alphabet that
occurs in the data (ASCII letters plus the accented Spanish letters). -/
def upperPairs : List (Char × Char) :=
  [('a', 'A'), ('b', 'B'), ('c', 'C'), ('d', 'D'), ('e', 'E'), ('f', 'F'),
   ('g', 'G'), ('h', 'H'), ('i', 'I'), ('j', 'J'), ('k', 'K'), ('l', 'L'),
   ('m', 'M'), ('n', 'N'), ('o', 'O'), ('p', 'P'), ('q', 'Q'), ('r', 'R'),
   ('s', 'S'), ('t', 'T'), ('u', 'U'), ('v', 'V'), ('w', 'W'), ('x', 'X'),
   ('y', 'Y'), ('z', 'Z'),
   ('á', 'Á'), ('é', 'É'), ('í', 'Í'), ('ó', 'Ó'), ('ú', 'Ú'),
   ('ñ', 'Ñ'), ('ü', 'Ü')]

/-- Uppercasing of a single character (Python `str.upper`, characterwise). -/
def charUpper (c : Char) : Char :=
  match upperPairs.find? (fun p => p.1 == c) with
  | some p => p.2
  | none => c

/-- Python `str.upper()`. -/
def pyUpper (s : List Char) : List Char := s.map charUpper

/-- Python `str.strip()`: drop leading and trailing whitespace. -/
def pyStrip (s : List Char) : List Char :=
  ((s.dropWhile pySpace).reverse.dropWhile pySpace).reverse

/-- The normalization applied on both sides of the join
(lines 46-47: `.str.upper().str.strip()`). -/
def normalizeStr (s : List Char) : List Char := pyStrip (pyUpper s)

/-- One feature of the GeoJSON: the `NOMBRE_DPT` attribute and an opaque
geometry payload (the code never inspects geometry, it only carries it). -/
structure Region (γ : Type) where
  name : List Char
  geom : γ
deriving DecidableEq, Repr

/-- One row of the Excel sheet: the `Departamento` column and the optional
`Año de publicación` column; other columns are ignored by the logic. -/
structure ProjectRecord where
  dept : List Char
  year : Option Int
deriving DecidableEq, Repr

/-- Stable insertion of `x` into a list sorted by `le`: `x` is placed before
the first element it is `le`-related to, hence before equal elements. -/
def insertLe (le : α → α → Bool) (x : α) : List α → List α
  | [] => [x]
  | y :: ys => if le x y then x :: y :: ys else y :: insertLe le x ys

/-- Stable insertion sort by the boolean relation `le`. -/
def insertionSort (le : α → α → Bool) : List α → List α
  | [] => []
  | x :: xs => insertLe le x (insertionSort le xs)

/-- `Series.value_counts()` (line 41): one row per distinct value with its
number of occurrences, ordered by count descending. -/
def value_counts (l : List (List Char)) : List (List Char × Nat) :=
  insertionSort (fun a b => decide (b.2 ≤ a.2))
    (l.dedup.map (fun k => (k, l.count k)))

/-- Lines 41-46: the per-department count table.  Note the order of
operations in the source: `value_counts` runs on the RAW department strings
and only afterwards are the keys normalized (line 46). -/
def proyectos_por_depto (records : List ProjectRecord) : List (List Char × Nat) :=
  (value_counts (records.map (fun r => r.dept))).map (fun p => (normalizeStr p.1, p.2))

/-- Line 47: the in-place update `gdf['NOMBRE_DPT'] = ...upper().strip()`,
modelled as the state of `gdf` after the assignment. -/
def gdf_normalized (gdf : List (Region γ)) : List (Region γ) :=
  gdf.map (fun r => Region.mk (normalizeStr r.name) r.geom)

/-- One left row's contribution to `gdf.merge(..., how='left')` followed by
`fillna(0)` (lines 50-58): every count row whose key equals the region name,
in count-table order, or a single 0 row when there is none. -/
def mergeRow (counts : List (List Char × Nat)) (r : Region γ) : List (Region γ × Nat) :=
  let ms := counts.filter (fun p => p.1 == r.name)
  if ms.isEmpty then [(r, 0)] else ms.map (fun p => (r, p.2))

/-- Lines 50-58: `gdf_merged` — the left merge of the count table onto the
(already normalized) regions, with missing counts filled with 0. -/
def gdf_merged (gdf : List (Region γ)) (records : List ProjectRecord) :
    List (Region γ × Nat) :=
  (gdf_normalized gdf).flatMap (mergeRow (proyectos_por_depto records))

/-- Line 98: the year column of `df_excel_clean`, i.e. the publication years
remaining after `dropna(subset=['Año de publicación'])`. -/
def yearsOf (records : List ProjectRecord) : List Int :=
  records.filterMap (fun r => r.year)

/-- Line 99: `groupby('Año de publicación').size()` — one row per distinct
year with its group size; pandas `groupby` sorts its keys ascending. -/
def grouped_by_year (records : List ProjectRecord) : List (Int × Nat) :=
  (insertionSort (fun a b => decide (a ≤ b)) (yearsOf records).dedup).map
    (fun y => (y, (yearsOf records).count y))

/-- Line 100: the explicit `sort_values('Año de publicación')`. -/
def proyectos_por_ano (records : List ProjectRecord) : List (Int × Nat) :=
  insertionSort (fun a b => decide (a.1 ≤ b.1)) (grouped_by_year records)

/-- Line 132: the "Total de Proyectos" metric is `len(df_excel)`. -/
def totalProjects (records : List ProjectRecord) : Nat := records.length

/-- Lines 20-33: the loader.  The outcomes of the two reads (GeoJSON, Excel)
are passed in as `Except` values; the `try/except` converts any failure of
either read into the sentinel `(None, None)`.  When the first read fails the
second is never attempted, which the match order reflects. -/
def cargar_datos (geo : Except String (List (Region γ)))
    (excel : Except String (List ProjectRecord)) :
    Option (List (Region γ)) × Option (List ProjectRecord) :=
  match geo with
  | Except.error _ => (none, none)
  | Except.ok g =>
    match excel with
    | Except.error _ => (none, none)
    | Except.ok d => (some g, some d)

/-- What the script renders: either the dashboard built from the two
aggregates and the total metric, or the static error panel. -/
inductive AppOutput (γ : Type) where
  | dashboard : List (Region γ × Nat) → List (Int × Nat) → Nat → AppOutput γ
  | errorPanel : AppOutput γ
deriving DecidableEq, Repr

/-- Lines 36-38 and 163: run the loader, then the aggregation/rendering
pipeline only when both collections are present. -/
def runApp (geo : Except String (List (Region γ)))
    (excel : Except String (List ProjectRecord)) : AppOutput γ :=
  match cargar_datos geo excel with
  | (some g, some d) =>
      AppOutput.dashboard (gdf_merged g d) (proyectos_por_ano d) (totalProjects d)
  | _ => AppOutput.errorPanel

example : normalizeStr " bogotá ".toList = "BOGOTÁ".toList := by decide

example :
    proyectos_por_depto
      [ProjectRecord.mk "Antioquia".toList none,
       ProjectRecord.mk "antioquia ".toList none,
       ProjectRecord.mk "Valle".toList none]
    = [("ANTIOQUIA".toList, 1), ("ANTIOQUIA".toList, 1), ("VALLE".toList, 1)] := by decide

example :
    (gdf_merged
      [Region.mk "ANTIOQUIA".toList (0 : Nat), Region.mk "CHOCO".toList 0]
      [ProjectRecord.mk "Antioquia".toList none,
       ProjectRecord.mk "antioquia ".toList none,
       ProjectRecord.mk "Valle".toList none]).map (fun e => (e.1.name, e.2))
    = [("ANTIOQUIA".toList, 1), ("ANTIOQUIA".toList, 1), ("CHOCO".toList, 0)] := by decide

example :
    proyectos_por_ano
      [ProjectRecord.mk "A".toList (some 2020),
       ProjectRecord.mk "B".toList (some 2019),
       ProjectRecord.mk "A".toList (some 2020),
       ProjectRecord.mk "C".toList none]
    = [(2019, 1), (2020, 2)] := by decide

/-! ### Normalization lemmas (lines 46-47) -/

/-- No uppercase image in `upperPairs` is itself a lowercase key. -/
theorem upperPairs_upper_not_key :
    ∀ q ∈ upperPairs, upperPairs.find? (fun p => p.1 == q.2) = none := by decide

/-- Neither side of any case pair is whitespace. -/
theorem upperPairs_not_space :
    ∀ q ∈ upperPairs, pySpace q.1 = false ∧ pySpace q.2 = false := by decide

/-- Characterwise uppercasing is idempotent. -/
theorem charUpper_charUpper (c : Char) : charUpper (charUpper c) = charUpper c := by
  cases h : upperPairs.find? (fun p => p.1 == c) with
  | none =>
      have hc : charUpper c = c := by rw [charUpper, h]
      simp [hc]
  | some q =>
      have h1 : charUpper c = q.2 := by rw [charUpper, h]
      rw [h1, charUpper, upperPairs_upper_not_key q (List.mem_of_find?_eq_some h)]

/-- Uppercasing does not change whether a character is whitespace. -/
theorem pySpace_charUpper (c : Char) : pySpace (charUpper c) = pySpace c := by
  cases h : upperPairs.find? (fun p => p.1 == c) with
  | none =>
      have hc : charUpper c = c := by rw [charUpper, h]
      rw [hc]
  | some q =>
      have h1 : charUpper c = q.2 := by rw [charUpper, h]
      have hq := List.mem_of_find?_eq_some h
      have hc : q.1 = c := by simpa using List.find?_some h
      rw [h1, (upperPairs_not_space q hq).2, ← hc, (upperPairs_not_space q hq).1]

/-- `str.upper()` is idempotent. -/
theorem pyUpper_pyUpper (s : List Char) : pyUpper (pyUpper s) = pyUpper s := by
  simp only [pyUpper, List.map_map]
  apply List.map_congr_left
  intro c _
  exact charUpper_charUpper c

/-- `dropWhile` is idempotent. -/
theorem dropWhile_idem (p : α → Bool) (l : List α) :
    (l.dropWhile p).dropWhile p = l.dropWhile p := by
  induction l with
  | nil => rfl
  | cons a l ih =>
      by_cases h : p a
      · simp [List.dropWhile_cons, h, ih]
      · simp [List.dropWhile_cons, h]

/-- If `dropWhile` leaves a cons unchanged, its head fails the predicate. -/
theorem head_false_of_dropWhile_fix (p : α → Bool) (a : α) (l : List α)
    (h : (a :: l).dropWhile p = a :: l) : p a = false := by
  by_cases hpa : p a = true
  · rw [List.dropWhile_cons_of_pos hpa] at h
    have h1 : (l.dropWhile p).length ≤ l.length := (List.dropWhile_sublist p).length_le
    have h2 := congrArg List.length h
    simp at h2
    omega
  · exact Bool.eq_false_iff.mpr hpa

/-- Stripping trailing whitespace commutes with a non-whitespace head. -/
theorem stripTrail_cons_of_neg (p : α → Bool) (a : α) (l : List α) (h : p a = false) :
    ((a :: l).reverse.dropWhile p).reverse = a :: (l.reverse.dropWhile p).reverse := by
  rw [List.reverse_cons, List.dropWhile_append]
  by_cases he : (l.reverse.dropWhile p).isEmpty
  · rw [List.isEmpty_iff] at he
    simp [he, List.dropWhile_cons, h]
  · simp [he]

/-- `str.strip()` is idempotent. -/
theorem pyStrip_idem (s : List Char) : pyStrip (pyStrip s) = pyStrip s := by
  have hlead : (pyStrip s).dropWhile pySpace = pyStrip s := by
    rcases hm : s.dropWhile pySpace with _ | ⟨a, m'⟩
    · simp [pyStrip, hm]
    · have hfix := dropWhile_idem pySpace s
      rw [hm] at hfix
      have ha := head_false_of_dropWhile_fix pySpace a m' hfix
      rw [pyStrip, hm, stripTrail_cons_of_neg pySpace a m' ha,
        List.dropWhile_cons_of_neg (by simp [ha])]
  show ((((pyStrip s).dropWhile pySpace).reverse.dropWhile pySpace).reverse) = pyStrip s
  rw [hlead]
  show ((((((s.dropWhile pySpace).reverse.dropWhile pySpace).reverse)).reverse.dropWhile pySpace).reverse) = _
  rw [List.reverse_reverse, dropWhile_idem]
  rfl

/-- `upper` and `strip` commute. -/
theorem pyUpper_pyStrip (s : List Char) : pyUpper (pyStrip s) = pyStrip (pyUpper s) := by
  have hps : (pySpace ∘ charUpper) = pySpace := funext (fun c => pySpace_charUpper c)
  simp only [pyStrip, pyUpper]
  rw [List.dropWhile_map, hps, ← List.map_reverse, List.dropWhile_map, hps, List.map_reverse]

/-- The join-key normalization is idempotent. -/
theorem norm_idem (s : List Char) : normalizeStr (normalizeStr s) = normalizeStr s := by
  show pyStrip (pyUpper (pyStrip (pyUpper s))) = pyStrip (pyUpper s)
  rw [pyUpper_pyStrip, pyUpper_pyUpper, pyStrip_idem]

/-- C7: the normalization (uppercase then strip) is idempotent, and strings
differing only in case or leading/trailing whitespace — `" bogotá "`,
`"BOGOTÁ"`, `"Bogotá"` — normalize to the same result. -/
theorem norm_idempotent_and_case_space_insensitive :
    (∀ s : List Char, normalizeStr (normalizeStr s) = normalizeStr s) ∧
    normalizeStr " bogotá ".toList = normalizeStr "BOGOTÁ".toList ∧
    normalizeStr "BOGOTÁ".toList = normalizeStr "Bogotá".toList :=
  ⟨norm_idem, by decide, by decide⟩

/-! ### Loader and pipeline guard (lines 20-38) -/

/-- C6: any failure while reading either resource makes the loader return the
sentinel `(None, None)` instead of propagating the error, and the script then
renders the static error panel — no aggregation or chart code runs. -/
theorem loader_failure_yields_sentinel (geo : Except String (List (Region γ)))
    (excel : Except String (List ProjectRecord))
    (h : (∃ e, geo = Except.error e) ∨ (∃ e, excel = Except.error e)) :
    cargar_datos geo excel = (none, none) ∧ runApp geo excel = AppOutput.errorPanel := by
  cases geo with
  | error e => exact ⟨rfl, rfl⟩
  | ok g =>
      cases excel with
      | error e => exact ⟨rfl, rfl⟩
      | ok d =>
          rcases h with ⟨e, he⟩ | ⟨e, he⟩ <;> exact absurd he (by simp)

theorem loader_failure_yields_sentinel_witness :
    ((∃ e, (Except.error "missing file" : Except String (List (Region Nat))) = Except.error e) ∨
      (∃ e, (Except.ok [] : Except String (List ProjectRecord)) = Except.error e)) ∧
    (cargar_datos (Except.error "missing file" : Except String (List (Region Nat)))
        (Except.ok []) = (none, none) ∧
      runApp (Except.error "missing file" : Except String (List (Region Nat)))
        (Except.ok []) = AppOutput.errorPanel) :=
  ⟨Or.inl ⟨"missing file", rfl⟩,
    loader_failure_yields_sentinel _ _ (Or.inl ⟨"missing file", rfl⟩)⟩

/-- C10: the loader is all-or-nothing — it returns either both collections or
`(None, None)`, never exactly one — and the aggregation/rendering pipeline
runs exactly when both are present. -/
theorem loader_all_or_nothing (geo : Except String (List (Region γ)))
    (excel : Except String (List ProjectRecord)) :
    (cargar_datos geo excel = (none, none) ∧ runApp geo excel = AppOutput.errorPanel) ∨
    (∃ g d, cargar_datos geo excel = (some g, some d) ∧
      runApp geo excel =
        AppOutput.dashboard (gdf_merged g d) (proyectos_por_ano d) (totalProjects d)) := by
  cases geo with
  | error e => exact Or.inl ⟨rfl, rfl⟩
  | ok g =>
      cases excel with
      | error e => exact Or.inl ⟨rfl, rfl⟩
      | ok d => exact Or.inr ⟨g, d, rfl, rfl⟩

/-! ### Empty inputs (C8) -/

/-- C8: with an empty region collection and an empty record collection, the
per-region aggregate is empty, the per-year aggregate is empty, and the
"total projects" metric is 0. -/
theorem empty_inputs_give_empty_aggregates :
    gdf_merged ([] : List (Region Nat)) [] = [] ∧
    proyectos_por_ano [] = [] ∧ totalProjects [] = 0 :=
  ⟨rfl, rfl, rfl⟩

/-! ### Frame effect of the aggregation on the region collection (C9) -/

/-- C9 counterexample: line 47 rewrites the `NOMBRE_DPT` column in place, so
a region whose stored name is not yet normalized is modified by the
aggregation step. -/
theorem aggregation_mutates_region_names :
    gdf_normalized [Region.mk " antioquia ".toList (0 : Nat)]
      ≠ [Region.mk " antioquia ".toList 0] := by decide

/-- C9 (amended): the aggregation step replaces each region's name by its
normalized form and changes nothing else — geometry is untouched, and a
region collection whose names are already normalized is left unchanged. -/
theorem aggregation_only_normalizes_names (gdf : List (Region γ)) :
    (gdf_normalized gdf).map (fun r => r.geom) = gdf.map (fun r => r.geom) ∧
    gdf_normalized gdf = gdf.map (fun r => Region.mk (normalizeStr r.name) r.geom) ∧
    ((∀ r ∈ gdf, normalizeStr r.name = r.name) → gdf_normalized gdf = gdf) := by
  refine ⟨?_, rfl, ?_⟩
  · simp [gdf_normalized, List.map_map, Function.comp_def]
  · intro h
    show gdf.map (fun r => Region.mk (normalizeStr r.name) r.geom) = gdf
    conv_rhs => rw [← List.map_id gdf]
    apply List.map_congr_left
    intro r hr
    have hn := h r hr
    cases r with
    | mk n g => simp only [id_eq]; rw [show normalizeStr n = n from hn]

theorem aggregation_only_normalizes_names_witness :
    (∀ r ∈ [Region.mk "CHOCO".toList (0 : Nat)], normalizeStr r.name = r.name) ∧
    gdf_normalized [Region.mk "CHOCO".toList (0 : Nat)] =
      [Region.mk "CHOCO".toList 0] :=
  ⟨by decide, (aggregation_only_normalizes_names _).2.2 (by decide)⟩

/-! ### Sorting lemmas for the embedded pandas sorts -/

/-- Inserting with `insertLe` is a permutation of consing. -/
theorem insertLe_perm (le : α → α → Bool) (x : α) (l : List α) :
    List.Perm (insertLe le x l) (x :: l) := by
  induction l with
  | nil => exact List.Perm.refl _
  | cons y ys ih =>
      cases hxy : le x y with
      | true => simp [insertLe, hxy]
      | false =>
          simp only [insertLe, hxy, Bool.false_eq_true, if_false]
          exact (ih.cons y).trans (List.Perm.swap x y ys)

/-- The insertion sort permutes its input. -/
theorem insertionSort_perm (le : α → α → Bool) (l : List α) :
    List.Perm (insertionSort le l) l := by
  induction l with
  | nil => exact List.Perm.refl _
  | cons x xs ih => exact (insertLe_perm le x _).trans (ih.cons x)

/-- `insertLe` preserves sortedness for a total, transitive comparison. -/
theorem pairwise_insertLe (le : α → α → Bool)
    (htot : ∀ a b, le a b = true ∨ le b a = true)
    (htrans : ∀ a b c, le a b = true → le b c = true → le a c = true)
    (x : α) (l : List α) (h : l.Pairwise (fun a b => le a b = true)) :
    (insertLe le x l).Pairwise (fun a b => le a b = true) := by
  induction l with
  | nil => simp [insertLe]
  | cons y ys ih =>
      rcases List.pairwise_cons.mp h with ⟨hy, hys⟩
      cases hxy : le x y with
      | true =>
          simp only [insertLe, hxy, if_true]
          refine List.pairwise_cons.mpr ⟨?_, h⟩
          intro z hz
          rcases List.mem_cons.mp hz with rfl | hzys
          · exact hxy
          · exact htrans x y z hxy (hy z hzys)
      | false =>
          have hyx : le y x = true := (htot x y).resolve_left (by simp [hxy])
          simp only [insertLe, hxy, Bool.false_eq_true, if_false]
          refine List.pairwise_cons.mpr ⟨?_, ih hys⟩
          intro z hz
          have hz' := (insertLe_perm le x ys).mem_iff.mp hz
          rcases List.mem_cons.mp hz' with rfl | hzys
          · exact hyx
          · exact hy z hzys

/-- The insertion sort produces a sorted list for a total, transitive
comparison. -/
theorem pairwise_insertionSort (le : α → α → Bool)
    (htot : ∀ a b, le a b = true ∨ le b a = true)
    (htrans : ∀ a b c, le a b = true → le b c = true → le a c = true)
    (l : List α) :
    (insertionSort le l).Pairwise (fun a b => le a b = true) := by
  induction l with
  | nil => simp [insertionSort]
  | cons x xs ih => exact pairwise_insertLe le htot htrans x _ ih

/-- The year comparison used by the final `sort_values` is total. -/
theorem leYearPair_total :
    ∀ a b : Int × Nat, decide (a.1 ≤ b.1) = true ∨ decide (b.1 ≤ a.1) = true := by
  intro a b
  rcases le_total a.1 b.1 with h | h
  · exact Or.inl (by simpa using h)
  · exact Or.inr (by simpa using h)

/-- The year comparison used by the final `sort_values` is transitive. -/
theorem leYearPair_trans :
    ∀ a b c : Int × Nat, decide (a.1 ≤ b.1) = true → decide (b.1 ≤ c.1) = true →
      decide (a.1 ≤ c.1) = true := by
  intro a b c hab hbc
  simp only [decide_eq_true_eq] at *
  exact le_trans hab hbc

/-! ### The per-year aggregation (C5) -/

/-- The keys of the grouped table are the sorted distinct years. -/
theorem grouped_by_year_fst (records : List ProjectRecord) :
    (grouped_by_year records).map Prod.fst =
      insertionSort (fun a b => decide (a ≤ b)) (yearsOf records).dedup := by
  simp [grouped_by_year, List.map_map, Function.comp_def]

/-- Every row of the grouped table is a present year with its count. -/
theorem mem_grouped_by_year (records : List ProjectRecord) (e : Int × Nat)
    (he : e ∈ grouped_by_year records) :
    e.1 ∈ yearsOf records ∧ e.2 = (yearsOf records).count e.1 := by
  rcases List.mem_map.mp he with ⟨y, hy, rfl⟩
  have hy' : y ∈ (yearsOf records).dedup := (insertionSort_perm _ _).mem_iff.mp hy
  exact ⟨List.mem_dedup.mp hy', rfl⟩

/-- C5: the per-year aggregation emits no entry derived from records with a
missing publication year, its years are strictly increasing with no
duplicates, and every emitted count is positive — a year appears only if at
least one record carries that year. -/
theorem year_aggregate_sound (records : List ProjectRecord) :
    List.Pairwise (· < ·) ((proyectos_por_ano records).map Prod.fst) ∧
    ∀ e ∈ proyectos_por_ano records,
      0 < e.2 ∧ ∃ rec ∈ records, rec.year = some e.1 := by
  have hperm : List.Perm (proyectos_por_ano records) (grouped_by_year records) :=
    insertionSort_perm _ _
  constructor
  · have hsorted := pairwise_insertionSort (fun a b : Int × Nat => decide (a.1 ≤ b.1))
      leYearPair_total leYearPair_trans (grouped_by_year records)
    have hle : ((proyectos_por_ano records).map Prod.fst).Pairwise (· ≤ ·) := by
      rw [List.pairwise_map]
      exact hsorted.imp (fun h => by simpa using h)
    have hnd : ((proyectos_por_ano records).map Prod.fst).Nodup := by
      have h1 : List.Perm ((proyectos_por_ano records).map Prod.fst)
          ((grouped_by_year records).map Prod.fst) := hperm.map _
      rw [grouped_by_year_fst] at h1
      have h2 : List.Perm ((proyectos_por_ano records).map Prod.fst)
          ((yearsOf records).dedup) :=
        h1.trans (insertionSort_perm _ _)
      exact h2.symm.nodup (List.nodup_dedup _)
    exact (hle.and hnd).imp (fun h => lt_of_le_of_ne h.1 h.2)
  · intro e he
    have heg : e ∈ grouped_by_year records := hperm.mem_iff.mp he
    rcases mem_grouped_by_year records e heg with ⟨h1, h2⟩
    refine ⟨?_, ?_⟩
    · rw [h2]
      exact List.count_pos_iff.mpr h1
    · rcases List.mem_filterMap.mp h1 with ⟨rec, hrec, hy⟩
      exact ⟨rec, hrec, hy⟩

/-- Concrete record list exercising the per-year aggregation. -/
def sampleYearRecords : List ProjectRecord :=
  [ProjectRecord.mk "A".toList (some 2020), ProjectRecord.mk "B".toList (some 2019),
   ProjectRecord.mk "A".toList (some 2020), ProjectRecord.mk "C".toList none]

theorem year_aggregate_sound_witness :
    ((2019 : Int), (1 : Nat)) ∈ proyectos_por_ano sampleYearRecords ∧
    (0 < (1 : Nat) ∧ ∃ rec ∈ sampleYearRecords, rec.year = some (2019 : Int)) :=
  ⟨by decide, (year_aggregate_sound sampleYearRecords).2 ((2019 : Int), (1 : Nat)) (by decide)⟩

/-! ### The per-department count table and the left merge (C1-C4) -/

/-- The raw department column `df_excel['Departamento']`. -/
def rawDepts (records : List ProjectRecord) : List (List Char) :=
  records.map (fun r => r.dept)

/-- `value_counts` is a permutation of the deduplicated values paired with
their multiplicities. -/
theorem value_counts_perm (l : List (List Char)) :
    List.Perm (value_counts l) (l.dedup.map (fun k => (k, l.count k))) :=
  insertionSort_perm _ _

/-- The normalized count table is a permutation of the deduplicated raw
department values, each normalized and paired with its raw multiplicity. -/
theorem proyectos_por_depto_perm (records : List ProjectRecord) :
    List.Perm (proyectos_por_depto records)
      ((rawDepts records).dedup.map
        (fun k => (normalizeStr k, (rawDepts records).count k))) := by
  have h := (value_counts_perm (rawDepts records)).map (fun p => (normalizeStr p.1, p.2))
  rw [List.map_map] at h
  exact h

/-- A `Nodup` list whose only element satisfying `p` is `k` filters to `[k]`. -/
theorem filter_eq_singleton (p : α → Bool) (l : List α) (k : α) (hnd : l.Nodup)
    (hk : k ∈ l) (hp : p k = true) (huniq : ∀ x ∈ l, p x = true → x = k) :
    l.filter p = [k] := by
  induction l with
  | nil => cases hk
  | cons a l ih =>
      rcases List.nodup_cons.mp hnd with ⟨hal, hl⟩
      rcases List.mem_cons.mp hk with rfl | hkl
      · rw [List.filter_cons_of_pos hp]
        have hnil : l.filter p = [] := by
          rw [List.filter_eq_nil_iff]
          intro x hx hpx
          exact hal ((huniq x (List.mem_cons_of_mem _ hx) hpx) ▸ hx)
        rw [hnil]
      · have hpa : ¬ p a = true := by
          intro hpa
          apply hal
          rw [huniq a (List.mem_cons_self a l) hpa]
          exact hkl
        rw [List.filter_cons_of_neg hpa]
        exact ih hl hkl (fun x hx hpx => huniq x (List.mem_cons_of_mem _ hx) hpx)

/-- Under injective normalization of the raw department values, each merge
row is a singleton carrying the number of records whose normalized
department equals the region's (already normalized) name. -/
theorem mergeRow_proyectos (records : List ProjectRecord) (s : Region γ)
    (Hinj : ∀ a ∈ rawDepts records, ∀ b ∈ rawDepts records, normalizeStr a = normalizeStr b → a = b) :
    mergeRow (proyectos_por_depto records) s =
      [(s, (rawDepts records).countP (fun a => normalizeStr a == s.name))] := by
  have hms : List.Perm
      ((proyectos_por_depto records).filter (fun p => p.1 == s.name))
      (((rawDepts records).dedup.map
        (fun k => (normalizeStr k, (rawDepts records).count k))).filter
          (fun p => p.1 == s.name)) :=
    (proyectos_por_depto_perm records).filter _
  rw [List.filter_map] at hms
  by_cases hex : ∃ k ∈ rawDepts records, normalizeStr k = s.name
  · obtain ⟨k, hk, hkn⟩ := hex
    have hfil : (rawDepts records).dedup.filter
        ((fun p => p.1 == s.name) ∘ (fun k => (normalizeStr k, (rawDepts records).count k)))
          = [k] := by
      apply filter_eq_singleton _ _ k (List.nodup_dedup _) (List.mem_dedup.mpr hk)
      · simpa using hkn
      · intro x hx hpx
        have hxn : normalizeStr x = s.name := by simpa using hpx
        exact Hinj x (List.mem_dedup.mp hx) k hk (hxn.trans hkn.symm)
    rw [hfil] at hms
    have hmseq : (proyectos_por_depto records).filter (fun p => p.1 == s.name) =
        [(normalizeStr k, (rawDepts records).count k)] := by
      simpa using List.perm_singleton.mp (by simpa using hms)
    have hcount : (rawDepts records).count k =
        (rawDepts records).countP (fun a => normalizeStr a == s.name) := by
      rw [List.count_eq_countP]
      apply List.countP_congr
      intro x hx
      constructor
      · intro hxk
        have hxk' : x = k := by simpa using hxk
        subst hxk'
        simpa using hkn
      · intro hxn
        have hxn' : normalizeStr x = s.name := by simpa using hxn
        have : x = k := Hinj x hx k hk (hxn'.trans hkn.symm)
        simp [this]
    simp only [mergeRow, hmseq, hcount, List.isEmpty_cons, List.map_cons, List.map_nil]
    simp [hkn]
  · push_neg at hex
    have hfil : (rawDepts records).dedup.filter
        ((fun p => p.1 == s.name) ∘ (fun k => (normalizeStr k, (rawDepts records).count k)))
          = [] := by
      rw [List.filter_eq_nil_iff]
      intro x hx hpx
      have hxn : normalizeStr x = s.name := by simpa using hpx
      exact hex x (List.mem_dedup.mp hx) hxn
    rw [hfil, List.map_nil] at hms
    have hmseq : (proyectos_por_depto records).filter (fun p => p.1 == s.name) = [] :=
      List.perm_nil.mp hms
    have hcount : (rawDepts records).countP (fun a => normalizeStr a == s.name) = 0 := by
      rw [List.countP_eq_zero]
      intro a ha
      simp only [beq_iff_eq]
      intro hpa
      exact hex a ha (by simpa using hpa)
    simp [mergeRow, hmseq, hcount]

/-- A `flatMap` whose blocks are singletons is a `map`. -/
theorem flatMap_singletons (f : α → List β) (g : α → β) (l : List α)
    (h : ∀ a ∈ l, f a = [g a]) : l.flatMap f = l.map g := by
  induction l with
  | nil => rfl
  | cons a l ih =>
      rw [List.flatMap_cons, h a (List.mem_cons_self a l),
        ih (fun x hx => h x (List.mem_cons_of_mem a hx))]
      rfl

/-- Under injective normalization of the raw department values, the merged
table has exactly one row per region, in region order, carrying the number
of records whose normalized department equals the region's normalized
name. -/
theorem gdf_merged_eq_map (gdf : List (Region γ)) (records : List ProjectRecord)
    (Hinj : ∀ a ∈ rawDepts records, ∀ b ∈ rawDepts records, normalizeStr a = normalizeStr b → a = b) :
    gdf_merged gdf records = gdf.map (fun r =>
      (Region.mk (normalizeStr r.name) r.geom,
        (rawDepts records).countP (fun a => normalizeStr a == normalizeStr r.name))) := by
  show (gdf_normalized gdf).flatMap (mergeRow (proyectos_por_depto records)) = _
  rw [flatMap_singletons (mergeRow (proyectos_por_depto records))
    (fun s => (s, (rawDepts records).countP (fun a => normalizeStr a == s.name)))
    (gdf_normalized gdf)
    (fun s _ => mergeRow_proyectos records s Hinj)]
  show (gdf.map (fun r => Region.mk (normalizeStr r.name) r.geom)).map _ = _
  rw [List.map_map]
  apply List.map_congr_left
  intro r _
  rfl

/-- C1 (amended): provided no two distinct raw department strings among the
records normalize to the same string, the per-region aggregation produces
exactly `len(R)` entries — one per input region, order-preserving — each
with a non-negative project count. -/
theorem region_aggregate_one_row_per_region (gdf : List (Region γ))
    (records : List ProjectRecord)
    (Hinj : ∀ a ∈ rawDepts records, ∀ b ∈ rawDepts records,
      normalizeStr a = normalizeStr b → a = b) :
    (gdf_merged gdf records).length = gdf.length ∧
    (gdf_merged gdf records).map Prod.fst = gdf_normalized gdf ∧
    ∀ e ∈ gdf_merged gdf records, 0 ≤ e.2 := by
  rw [gdf_merged_eq_map gdf records Hinj]
  refine ⟨by simp, ?_, fun e _ => Nat.zero_le _⟩
  rw [List.map_map]
  simp only [gdf_normalized]
  apply List.map_congr_left
  intro r _
  rfl

/-- Region and record collections on which the C1 guarantee fails. -/
def regionsC1 : List (Region Nat) := [Region.mk "ANTIOQUIA".toList 0]

/-- Two spellings of the same department, normalizing identically. -/
def recordsC1 : List ProjectRecord :=
  [ProjectRecord.mk "Antioquia".toList none, ProjectRecord.mk "antioquia ".toList none]

/-- C1 counterexample: because `value_counts` runs before normalization,
the two spellings produce two count rows with the same normalized key, the
left merge duplicates the region, and the output has 2 entries for 1
region. -/
theorem region_aggregate_one_row_per_region_cex :
    (gdf_merged regionsC1 recordsC1).length ≠ regionsC1.length := by decide

/-- Inputs satisfying the injective-normalization hypothesis. -/
def regionsW1 : List (Region Nat) :=
  [Region.mk "ANTIOQUIA".toList 0, Region.mk "CHOCO".toList 0]

/-- Records whose raw department strings normalize injectively. -/
def recordsW1 : List ProjectRecord :=
  [ProjectRecord.mk "Antioquia".toList none, ProjectRecord.mk "Valle".toList none,
   ProjectRecord.mk "Antioquia".toList none]

theorem region_aggregate_one_row_per_region_witness :
    (∀ a ∈ rawDepts recordsW1, ∀ b ∈ rawDepts recordsW1,
      normalizeStr a = normalizeStr b → a = b) ∧
    ((gdf_merged regionsW1 recordsW1).length = regionsW1.length ∧
      (gdf_merged regionsW1 recordsW1).map Prod.fst = gdf_normalized regionsW1) :=
  ⟨by decide,
    ⟨(region_aggregate_one_row_per_region regionsW1 recordsW1 (by decide)).1,
      (region_aggregate_one_row_per_region regionsW1 recordsW1 (by decide)).2.1⟩⟩

/-- C3 (amended): provided no two distinct raw department strings among the
records normalize to the same string, each region row's count equals the
number of records whose normalized department equals the region's
normalized name (0 when there is none); there are no extra rows for
unmatched department strings, and the "total projects" metric counts every
record, matched or not. -/
theorem region_counts_are_matched_records (gdf : List (Region γ))
    (records : List ProjectRecord)
    (Hinj : ∀ a ∈ rawDepts records, ∀ b ∈ rawDepts records,
      normalizeStr a = normalizeStr b → a = b) :
    gdf_merged gdf records = gdf.map (fun r =>
      (Region.mk (normalizeStr r.name) r.geom,
        (records.filter
          (fun rec => normalizeStr rec.dept == normalizeStr r.name)).length)) ∧
    totalProjects records = records.length := by
  refine ⟨?_, rfl⟩
  rw [gdf_merged_eq_map gdf records Hinj]
  apply List.map_congr_left
  intro r _
  have hc : (rawDepts records).countP
      (fun a => normalizeStr a == normalizeStr r.name)
      = (records.filter
          (fun rec => normalizeStr rec.dept == normalizeStr r.name)).length := by
    rw [rawDepts, List.countP_map, List.countP_eq_length_filter]
    rfl
  rw [hc]

/-- Single region hit by two spellings of its department. -/
def regionsC3 : List (Region Nat) := [Region.mk "BOLIVAR".toList 0]

/-- Two spellings of one department, normalizing identically. -/
def recordsC3 : List ProjectRecord :=
  [ProjectRecord.mk "Bolivar".toList none, ProjectRecord.mk "bolivar ".toList none]

/-- C3 counterexample: the aggregate rows carry counts 1 and 1, neither of
which is the count (2) of records whose normalized department equals the
region's normalized name. -/
theorem region_counts_are_matched_records_cex :
    (gdf_merged regionsC3 recordsC3).map Prod.snd = [1, 1] ∧
    (recordsC3.filter
      (fun rec => normalizeStr rec.dept == "BOLIVAR".toList)).length = 2 ∧
    (gdf_merged regionsC3 recordsC3).map Prod.snd ≠ [2] := by decide

/-- Regions for the C3 witness: one name not yet normalized, one unmatched. -/
def regionsW3 : List (Region Nat) :=
  [Region.mk " cauca ".toList 0, Region.mk "HUILA".toList 0]

/-- Records whose raw department strings normalize injectively. -/
def recordsW3 : List ProjectRecord :=
  [ProjectRecord.mk "Cauca".toList none, ProjectRecord.mk "Cauca".toList none,
   ProjectRecord.mk "Tolima".toList none]

theorem region_counts_are_matched_records_witness :
    (∀ a ∈ rawDepts recordsW3, ∀ b ∈ rawDepts recordsW3,
      normalizeStr a = normalizeStr b → a = b) ∧
    gdf_merged regionsW3 recordsW3 = regionsW3.map (fun r =>
      (Region.mk (normalizeStr r.name) r.geom,
        (recordsW3.filter
          (fun rec => normalizeStr rec.dept == normalizeStr r.name)).length)) :=
  ⟨by decide, (region_counts_are_matched_records regionsW3 recordsW3 (by decide)).1⟩

/-! ### Sum of the merged counts (C4) -/

/-- Summing a pointwise sum of two `Nat` functions splits. -/
theorem sum_map_add_pointwise (l : List α) (f g : α → Nat) :
    (l.map (fun a => f a + g a)).sum = (l.map f).sum + (l.map g).sum := by
  induction l with
  | nil => rfl
  | cons a l ih =>
      simp only [List.map_cons, List.sum_cons, ih]
      omega

/-- A merge row's counts sum to the matching count rows' sum (the 0 filled
in for an unmatched region contributes nothing). -/
theorem mergeRow_snd_sum (counts : List (List Char × Nat)) (r : Region γ) :
    ((mergeRow counts r).map Prod.snd).sum =
      ((counts.filter (fun p => p.1 == r.name)).map Prod.snd).sum := by
  simp only [mergeRow]
  cases h : (counts.filter (fun p => p.1 == r.name)).isEmpty
  · simp only [h, Bool.false_eq_true, if_false, List.map_map]
    rfl
  · have h' : counts.filter (fun p => p.1 == r.name) = [] := by
      simpa using h
    simp [h']

/-- Sums distribute over `flatMap`. -/
theorem flatMap_map_sum (l : List α) (f : α → List β) (g : β → Nat) :
    ((l.flatMap f).map g).sum = (l.map (fun a => ((f a).map g).sum)).sum := by
  induction l with
  | nil => rfl
  | cons a l ih =>
      rw [List.flatMap_cons, List.map_append, List.sum_append, ih, List.map_cons,
        List.sum_cons]

/-- The sum over a key filter equals a guarded sum over the whole table. -/
theorem filter_snd_sum_eq_if (counts : List (List Char × Nat)) (n : List Char) :
    ((counts.filter (fun p => p.1 == n)).map Prod.snd).sum =
      (counts.map (fun e => if e.1 = n then e.2 else 0)).sum := by
  induction counts with
  | nil => rfl
  | cons e l ih =>
      by_cases h : e.1 = n
      · rw [List.filter_cons_of_pos (by simpa using h), List.map_cons, List.sum_cons, ih,
          List.map_cons, List.sum_cons, if_pos h]
      · rw [List.filter_cons_of_neg (by simpa using h), ih, List.map_cons, List.sum_cons,
          if_neg h]
        omega

/-- Splitting the occurrence count over a cons of names. -/
theorem count_cons_mul_term (e : List Char × Nat) (n : List Char)
    (ns : List (List Char)) :
    e.2 * List.count e.1 (n :: ns) =
      (if e.1 = n then e.2 else 0) + e.2 * List.count e.1 ns := by
  rw [List.count_cons, Nat.mul_add]
  by_cases h : e.1 = n
  · simp only [h, if_pos, beq_self_eq_true, if_true, Nat.mul_one]
    omega
  · simp [h]
    intro h'
    exact absurd h'.symm h

/-- Exchanging the two summations: summing the matched counts over all
names equals summing, over the count table, each count times the number of
names equal to its key. -/
theorem sum_filters_eq_sum_counts (counts : List (List Char × Nat))
    (names : List (List Char)) :
    (names.map
      (fun n => ((counts.filter (fun p => p.1 == n)).map Prod.snd).sum)).sum =
      (counts.map (fun e => e.2 * List.count e.1 names)).sum := by
  induction names with
  | nil => simp
  | cons n ns ih =>
      rw [List.map_cons, List.sum_cons, ih, filter_snd_sum_eq_if,
        ← sum_map_add_pointwise]
      exact congrArg List.sum
        (List.map_congr_left (fun e _ => (count_cons_mul_term e n ns).symm))

/-- Termwise comparison of two `Nat` sums, with the equality case. -/
theorem sum_map_le_with_iff (l : List α) (f g : α → Nat) (h : ∀ a ∈ l, f a ≤ g a) :
    (l.map f).sum ≤ (l.map g).sum ∧
      ((l.map f).sum = (l.map g).sum ↔ ∀ a ∈ l, f a = g a) := by
  induction l with
  | nil => simp
  | cons a l ih =>
      have ha := h a (List.mem_cons_self a l)
      obtain ⟨ih1, ih2⟩ := ih (fun x hx => h x (List.mem_cons_of_mem a hx))
      simp only [List.map_cons, List.sum_cons]
      refine ⟨Nat.add_le_add ha ih1, ?_, ?_⟩
      · intro heq
        have hfa : f a = g a ∧ (l.map f).sum = (l.map g).sum := by omega
        intro x hx
        rcases List.mem_cons.mp hx with rfl | hxl
        · exact hfa.1
        · exact (ih2.mp hfa.2) x hxl
      · intro hall
        have h1 : f a = g a := hall a (List.mem_cons_self a l)
        have h2 : (l.map f).sum = (l.map g).sum :=
          ih2.mpr (fun x hx => hall x (List.mem_cons_of_mem a hx))
        omega

/-- With a lawful equality test, a duplicate-free list counts each value at
most once. -/
theorem count_le_one_of_nodup [BEq α] [LawfulBEq α] (l : List α) (h : l.Nodup)
    (a : α) : l.count a ≤ 1 := by
  induction l with
  | nil => simp
  | cons b l ih =>
      rcases List.nodup_cons.mp h with ⟨hb, hl⟩
      rw [List.count_cons]
      by_cases hab : b = a
      · subst hab
        have hz : l.count b = 0 := List.count_eq_zero.mpr hb
        simp [hz]
      · have : (b == a) = false := by simpa using hab
        rw [this]
        simpa using ih hl

/-- Summing the indicator of one value over a list counts its occurrences. -/
theorem sum_map_indicator (m : List (List Char)) (a : List Char) :
    (m.map (fun k => if a == k then (1 : Nat) else 0)).sum = m.count a := by
  induction m with
  | nil => rfl
  | cons b m ih =>
      rw [List.map_cons, List.sum_cons, ih, List.count_cons]
      by_cases h : a = b
      · subst h
        simp only [beq_self_eq_true, if_true]
        omega
      · have h1 : (a == b) = false := by simpa using h
        have h2 : (b == a) = false := by simpa using fun hh => h hh.symm
        rw [h1, h2]
        simp

/-- The multiplicities of the distinct values sum to the list's length. -/
theorem sum_counts_dedup (l : List (List Char)) :
    (l.dedup.map (fun k => l.count k)).sum = l.length := by
  induction l with
  | nil => rfl
  | cons a l ih =>
      have hsplit : l.dedup.map (fun k => (a :: l).count k) =
          l.dedup.map (fun k => l.count k + if a == k then 1 else 0) :=
        List.map_congr_left (fun k _ => List.count_cons k a l)
      by_cases hmem : a ∈ l
      · rw [List.dedup_cons_of_mem hmem, hsplit, sum_map_add_pointwise, ih,
          sum_map_indicator]
        have hone : l.dedup.count a = 1 :=
          Nat.le_antisymm
            (count_le_one_of_nodup _ (List.nodup_dedup l) a)
            (List.count_pos_iff.mpr (List.mem_dedup.mpr hmem))
        rw [hone]
        simp
      · rw [List.dedup_cons_of_not_mem hmem, List.map_cons, List.sum_cons]
        have hz : l.count a = 0 := List.count_eq_zero.mpr hmem
        have hca : (a :: l).count a = 1 := by
          rw [List.count_cons, hz]
          simp
        rw [hca, hsplit, sum_map_add_pointwise, ih, sum_map_indicator]
        have hzero : l.dedup.count a = 0 :=
          List.count_eq_zero.mpr (fun hk => hmem (List.mem_dedup.mp hk))
        rw [hzero]
        simp [Nat.add_comm]

/-- The counts in the count table sum to the number of records. -/
theorem proyectos_snd_sum (records : List ProjectRecord) :
    ((proyectos_por_depto records).map Prod.snd).sum = records.length := by
  have h1 := (proyectos_por_depto_perm records).map Prod.snd
  rw [h1.sum_eq, List.map_map]
  have h3 : (Prod.snd ∘ fun k => (normalizeStr k, (rawDepts records).count k)) =
      fun k => (rawDepts records).count k := rfl
  rw [h3, sum_counts_dedup]
  simp [rawDepts]

/-- Every row of the count table comes from a raw department value. -/
theorem mem_proyectos_elim (records : List ProjectRecord) (e : List Char × Nat)
    (he : e ∈ proyectos_por_depto records) :
    ∃ k ∈ rawDepts records, e = (normalizeStr k, (rawDepts records).count k) := by
  have h := (proyectos_por_depto_perm records).mem_iff.mp he
  rcases List.mem_map.mp h with ⟨k, hk, rfl⟩
  exact ⟨k, List.mem_dedup.mp hk, rfl⟩

/-- Every raw department value yields a row of the count table. -/
theorem mem_proyectos_intro (records : List ProjectRecord) (k : List Char)
    (hk : k ∈ rawDepts records) :
    (normalizeStr k, (rawDepts records).count k) ∈ proyectos_por_depto records :=
  (proyectos_por_depto_perm records).mem_iff.mpr
    (List.mem_map.mpr ⟨k, List.mem_dedup.mpr hk, rfl⟩)

/-- The merged counts sum over the per-name filtered sums. -/
theorem merged_snd_sum_eq (gdf : List (Region γ)) (records : List ProjectRecord) :
    ((gdf_merged gdf records).map Prod.snd).sum =
      ((gdf.map (fun r => normalizeStr r.name)).map
        (fun n => (((proyectos_por_depto records).filter
          (fun p => p.1 == n)).map Prod.snd).sum)).sum := by
  show (((gdf_normalized gdf).flatMap
    (mergeRow (proyectos_por_depto records))).map Prod.snd).sum = _
  rw [flatMap_map_sum]
  have h1 : (gdf_normalized gdf).map
      (fun s => ((mergeRow (proyectos_por_depto records) s).map Prod.snd).sum) =
      (gdf_normalized gdf).map
        (fun s => (((proyectos_por_depto records).filter
          (fun p => p.1 == s.name)).map Prod.snd).sum) :=
    List.map_congr_left (fun s _ => mergeRow_snd_sum _ s)
  rw [h1]
  simp only [gdf_normalized, List.map_map]
  rfl

/-- The merged counts sum expressed over the count table. -/
theorem merged_snd_sum_counts (gdf : List (Region γ)) (records : List ProjectRecord) :
    ((gdf_merged gdf records).map Prod.snd).sum =
      ((proyectos_por_depto records).map
        (fun e => e.2 * List.count e.1
          (gdf.map (fun r => normalizeStr r.name)))).sum := by
  rw [merged_snd_sum_eq, sum_filters_eq_sum_counts]

/-- C4 (amended): provided the regions' normalized names are pairwise
distinct, the summed project counts of the per-region aggregate are at most
`len(P)`, with equality exactly when every record's normalized department
equals some region's normalized name. -/
theorem region_count_sum_bound (gdf : List (Region γ)) (records : List ProjectRecord)
    (Hnd : (gdf.map (fun r => normalizeStr r.name)).Nodup) :
    ((gdf_merged gdf records).map Prod.snd).sum ≤ records.length ∧
    (((gdf_merged gdf records).map Prod.snd).sum = records.length ↔
      ∀ rec ∈ records, ∃ r ∈ gdf, normalizeStr rec.dept = normalizeStr r.name) := by
  have hkey := merged_snd_sum_counts gdf records
  have hle1 : ∀ e ∈ proyectos_por_depto records,
      e.2 * List.count e.1 (gdf.map (fun r => normalizeStr r.name)) ≤ Prod.snd e := by
    intro e _
    have hc1 : List.count e.1 (gdf.map (fun r => normalizeStr r.name)) ≤ 1 :=
      count_le_one_of_nodup _ Hnd e.1
    calc e.2 * List.count e.1 (gdf.map (fun r => normalizeStr r.name))
        ≤ e.2 * 1 := Nat.mul_le_mul_left e.2 hc1
      _ = e.2 := Nat.mul_one e.2
  obtain ⟨hle, hiff⟩ := sum_map_le_with_iff (proyectos_por_depto records)
    (fun e => e.2 * List.count e.1 (gdf.map (fun r => normalizeStr r.name)))
    Prod.snd hle1
  have htot := proyectos_snd_sum records
  constructor
  · rw [hkey]
    exact htot ▸ hle
  · rw [hkey, ← htot, hiff]
    constructor
    · intro hall rec hrec
      have hk : rec.dept ∈ rawDepts records := List.mem_map.mpr ⟨rec, hrec, rfl⟩
      have he := mem_proyectos_intro records rec.dept hk
      have heq : (rawDepts records).count rec.dept *
          List.count (normalizeStr rec.dept)
            (gdf.map (fun r => normalizeStr r.name)) =
          (rawDepts records).count rec.dept := hall _ he
      have hpos : 0 < (rawDepts records).count rec.dept :=
        List.count_pos_iff.mpr hk
      have hmem : normalizeStr rec.dept ∈ gdf.map (fun r => normalizeStr r.name) := by
        by_contra hn
        rw [List.count_eq_zero.mpr hn, Nat.mul_zero] at heq
        omega
      rcases List.mem_map.mp hmem with ⟨r, hr, hr2⟩
      exact ⟨r, hr, hr2.symm⟩
    · intro hall e he
      rcases mem_proyectos_elim records e he with ⟨k, hk, rfl⟩
      rcases List.mem_map.mp hk with ⟨rec, hrec, hrdept⟩
      rcases hall rec hrec with ⟨r, hr, hreq⟩
      have hmem : normalizeStr k ∈ gdf.map (fun r => normalizeStr r.name) :=
        List.mem_map.mpr ⟨r, hr, (hrdept ▸ hreq).symm⟩
      have hcnt : List.count (normalizeStr k)
          (gdf.map (fun r => normalizeStr r.name)) = 1 :=
        Nat.le_antisymm (count_le_one_of_nodup _ Hnd _)
          (List.count_pos_iff.mpr hmem)
      show (rawDepts records).count k * _ = _
      rw [hcnt, Nat.mul_one]

/-- A duplicated region name. -/
def regionsC4 : List (Region Nat) :=
  [Region.mk "CAUCA".toList 0, Region.mk "CAUCA".toList 0]

/-- A single record matching the duplicated region. -/
def recordsC4 : List ProjectRecord := [ProjectRecord.mk "Cauca".toList none]

/-- C4 counterexample: with a duplicated region name, the single record is
counted once per duplicate and the summed project counts (2) exceed the
number of records (1). -/
theorem region_count_sum_bound_cex :
    ¬ ((gdf_merged regionsC4 recordsC4).map Prod.snd).sum ≤ recordsC4.length := by
  decide

/-- Regions with pairwise-distinct normalized names. -/
def regionsW4 : List (Region Nat) :=
  [Region.mk "CAUCA".toList 0, Region.mk "HUILA".toList 0]

/-- Records including colliding spellings and an unmatched department. -/
def recordsW4 : List ProjectRecord :=
  [ProjectRecord.mk "Cauca".toList none, ProjectRecord.mk "cauca ".toList none,
   ProjectRecord.mk "Meta".toList none]

theorem region_count_sum_bound_witness :
    ((regionsW4.map (fun r => normalizeStr r.name)).Nodup) ∧
    ((gdf_merged regionsW4 recordsW4).map Prod.snd).sum ≤ recordsW4.length :=
  ⟨by decide, (region_count_sum_bound regionsW4 recordsW4 (by decide)).1⟩

/-! ### Accumulation before the join (C2) -/

/-- The spec example's region collection. -/
def regionsC2 : List (Region Nat) :=
  [Region.mk "ANTIOQUIA".toList 0, Region.mk "CHOCO".toList 0]

/-- The spec example's records: two spellings of Antioquia and one Valle. -/
def recordsC2 : List ProjectRecord :=
  [ProjectRecord.mk "Antioquia".toList none,
   ProjectRecord.mk "antioquia ".toList none,
   ProjectRecord.mk "Valle".toList none]

/-- C2: the code runs `value_counts` on the raw strings (line 41) and only
then normalizes the keys (line 46), so spellings differing in case or
whitespace do NOT accumulate into one count before the join: the count
table keeps two separate ANTIOQUIA rows, and the left merge duplicates the
region, producing [(ANTIOQUIA,1),(ANTIOQUIA,1),(CHOCO,0)] instead of the
specified [(ANTIOQUIA,2),(CHOCO,0)]. -/
theorem accumulation_before_join_fails :
    proyectos_por_depto recordsC2 =
      [("ANTIOQUIA".toList, 1), ("ANTIOQUIA".toList, 1), ("VALLE".toList, 1)] ∧
    (gdf_merged regionsC2 recordsC2).map (fun e => (e.1.name, e.2)) =
      [("ANTIOQUIA".toList, 1), ("ANTIOQUIA".toList, 1), ("CHOCO".toList, 0)] ∧
    (gdf_merged regionsC2 recordsC2).map (fun e => (e.1.name, e.2)) ≠
      [("ANTIOQUIA".toList, 2), ("CHOCO".toList, 0)] := by
  decide
